import Mathlib

deriving instance DecidableEq for Except

set_option maxRecDepth 8000

/-!
Verification development for the `calc` expression evaluator (`src/calc.c`).

The program is a pipeline: a context-sensitive lexer (`eat_token`), a
shunting-yard infix-to-postfix transformer with a call-arity tracking stack
(the token loop in `main`), and a postfix evaluator over a value stack.

Modelling conventions, chosen to mirror the C source:
- C `double` values are modelled by `FP`: exact rationals extended with the
  IEEE special values `inf`, `negInf`, `nan`.  Finite arithmetic is exact
  (binary64 rounding and signed zeros are not modelled; every numeric input
  appearing in the properties below is exactly representable, where the two
  coincide).  Results of the unary math-library calls (`sin`, `log10`, ...)
  are irrational in general, so the evaluator is parametrised over an
  arbitrary interpretation `transc` of those calls; every theorem below holds
  for any interpretation, in particular for the actual C library functions.
- `strtod` is modelled on decimal literals (digits, optional fraction,
  optional exponent); its hexadecimal-float form is not modelled, and no
  input below uses it.
- The C token/arity stacks have a fixed capacity of 256 and abort the
  process when it is exceeded; the model uses unbounded lists.  The abort
  paths of `tk_pop`/`arity_pop` on an empty stack and of failing `assert`s
  are modelled as the errors `stackUnderflow`, `arityUnderflow`,
  `assertFail`.
- In `arity_inc` the C code increments `data[len - 1]` without a length
  guard; with `len = 0` it writes one slot before the array (out of bounds).
  That slot is never read back as a stack element, so the write is
  observationally a no-op, and the model treats it as such.
- The lexer loop of `main` is made structurally recursive with a fuel
  argument; `input length + 1` units always suffice because every produced
  token consumes at least one character.
-/

/-- Model of a C `double`: an exact rational or one of the IEEE special
values positive infinity, negative infinity, NaN. -/
inductive FP where
  | num (q : ℚ)
  | inf
  | negInf
  | nan
deriving DecidableEq, Repr

/-- Truncation of a rational toward zero, as C `fmod` uses. -/
def ratTrunc (q : ℚ) : ℤ := if q < 0 then -⌊-q⌋ else ⌊q⌋

/-- Negation of a modelled double (IEEE negation). -/
def fpNeg : FP → FP
  | .num q => .num (-q)
  | .inf => .negInf
  | .negInf => .inf
  | .nan => .nan

/-- Addition of modelled doubles (IEEE semantics, exact on finite values). -/
def fpAdd : FP → FP → FP
  | .nan, _ => .nan
  | .num _, .nan => .nan
  | .inf, .nan => .nan
  | .negInf, .nan => .nan
  | .num a, .num b => .num (a + b)
  | .num _, .inf => .inf
  | .num _, .negInf => .negInf
  | .inf, .num _ => .inf
  | .negInf, .num _ => .negInf
  | .inf, .inf => .inf
  | .negInf, .negInf => .negInf
  | .inf, .negInf => .nan
  | .negInf, .inf => .nan

/-- Subtraction of modelled doubles; IEEE subtraction is addition of the
negation. -/
def fpSub (a b : FP) : FP := fpAdd a (fpNeg b)

/-- Multiplication of modelled doubles (IEEE semantics, exact on finite
values; `0 * inf = nan`). -/
def fpMul : FP → FP → FP
  | .nan, _ => .nan
  | .num _, .nan => .nan
  | .inf, .nan => .nan
  | .negInf, .nan => .nan
  | .num a, .num b => .num (a * b)
  | .num a, .inf => if 0 < a then .inf else if a < 0 then .negInf else .nan
  | .num a, .negInf => if 0 < a then .negInf else if a < 0 then .inf else .nan
  | .inf, .num a => if 0 < a then .inf else if a < 0 then .negInf else .nan
  | .negInf, .num a => if 0 < a then .negInf else if a < 0 then .inf else .nan
  | .inf, .inf => .inf
  | .inf, .negInf => .negInf
  | .negInf, .inf => .negInf
  | .negInf, .negInf => .inf

/-- Division of modelled doubles.  Division by zero follows IEEE semantics:
`x / 0` is `inf` for `x > 0`, `negInf` for `x < 0`, and `nan` for `0 / 0`.
Signed zeros are not modelled, so a zero divisor is treated as `+0`. -/
def fpDiv : FP → FP → FP
  | .nan, _ => .nan
  | .num _, .nan => .nan
  | .inf, .nan => .nan
  | .negInf, .nan => .nan
  | .num a, .num b =>
      if b = 0 then (if 0 < a then .inf else if a < 0 then .negInf else .nan)
      else .num (a / b)
  | .num _, .inf => .num 0
  | .num _, .negInf => .num 0
  | .inf, .num a => if a < 0 then .negInf else .inf
  | .negInf, .num a => if a < 0 then .inf else .negInf
  | .inf, .inf => .nan
  | .inf, .negInf => .nan
  | .negInf, .inf => .nan
  | .negInf, .negInf => .nan

/-- C `fmod` on modelled doubles: `fmod(x, y) = x - trunc(x / y) * y`, with
`nan` for a zero divisor or an infinite dividend, and `x` for finite `x` and
infinite divisor. -/
def fpFmod : FP → FP → FP
  | .nan, _ => .nan
  | .num _, .nan => .nan
  | .inf, _ => .nan
  | .negInf, _ => .nan
  | .num a, .num b => if b = 0 then .nan else .num (a - b * (ratTrunc (a / b) : ℚ))
  | .num a, .inf => .num a
  | .num a, .negInf => .num a

/-- C `pow` on modelled doubles, following the IEEE special cases.  A finite
base with an integer exponent is computed exactly; a positive non-integer
power of a positive rational is irrational in general and is abstracted to
`nan` (no property below depends on that case), matching IEEE only in the
negative-base case where `nan` is the specified result. -/
def fpPow (a b : FP) : FP :=
  match b with
  | .nan => match a with
    | .num x => if x = 1 then .num 1 else .nan
    | _ => .nan
  | .inf =>
    match a with
    | .num x => if x = 1 ∨ x = -1 then .num 1 else if -1 < x ∧ x < 1 then .num 0 else .inf
    | .nan => .nan
    | _ => .inf
  | .negInf =>
    match a with
    | .num x => if x = 1 ∨ x = -1 then .num 1 else if -1 < x ∧ x < 1 then .inf else .num 0
    | .nan => .nan
    | _ => .num 0
  | .num e =>
    if e = 0 then .num 1
    else
      match a with
      | .nan => .nan
      | .inf => if 0 < e then .inf else .num 0
      | .negInf =>
        if 0 < e then (if e.den = 1 ∧ e.num % 2 ≠ 0 then .negInf else .inf)
        else .num 0
      | .num x =>
        if x = 1 then .num 1
        else if e.den = 1 then
          (if 0 ≤ e.num then .num (x ^ e.num.toNat)
           else if x = 0 then .inf
           else .num (x ^ e.num))
        else if x = 0 then (if 0 < e then .num 0 else .inf)
        else .nan

/-- IEEE `>` on modelled doubles (false whenever `nan` is involved). -/
def fpGt : FP → FP → Bool
  | .nan, _ => false
  | _, .nan => false
  | .num a, .num b => decide (b < a)
  | .num _, .inf => false
  | .num _, .negInf => true
  | .inf, .inf => false
  | .inf, _ => true
  | .negInf, _ => false

/-- IEEE `<` on modelled doubles (false whenever `nan` is involved). -/
def fpLt : FP → FP → Bool
  | .nan, _ => false
  | _, .nan => false
  | .num a, .num b => decide (a < b)
  | .num _, .inf => true
  | .num _, .negInf => false
  | .inf, _ => false
  | .negInf, .negInf => false
  | .negInf, _ => true

/-- Mirrors the C `OperatorId` enum. -/
inductive OperatorId where
  | binadd | binsub | binmul | bindiv | binrem | binpow | unplus | unminus
deriving DecidableEq, Repr

/-- Mirrors the C `Operator` descriptor: symbol, precedence, associativity,
unary flag. -/
structure Operator where
  id : OperatorId
  sym : Char
  precedence : Int
  lassoc : Bool
  unary : Bool
deriving DecidableEq, Repr

/-- The static operator catalog `operators` from `src/calc.c`, in order. -/
def operators : List Operator := [
  ⟨.binadd,  '+', 1, true,  false⟩,
  ⟨.binsub,  '-', 1, true,  false⟩,
  ⟨.binmul,  '*', 2, true,  false⟩,
  ⟨.bindiv,  '/', 2, true,  false⟩,
  ⟨.binrem,  '%', 2, true,  false⟩,
  ⟨.binpow,  '^', 3, false, false⟩,
  ⟨.unplus,  '+', 4, false, true⟩,
  ⟨.unminus, '-', 4, false, true⟩]

/-- Mirrors the C `FunctionId` enum. -/
inductive FunctionId where
  | max | min | log10 | log2 | ln | sin | asin | cos | acos | tan | atan
  | ceil | floor | round | sqrt
deriving DecidableEq, Repr

/-- Mirrors the C `Function` descriptor: name and declared arity, where `-1`
means variadic with a hardcoded minimum of one argument. -/
structure Function where
  id : FunctionId
  name : String
  arity : Int
deriving DecidableEq, Repr

/-- The static function catalog `functions` from `src/calc.c`, in order. -/
def functions : List Function := [
  ⟨.max,   "max",   -1⟩,
  ⟨.min,   "min",   -1⟩,
  ⟨.log10, "log10",  1⟩,
  ⟨.log2,  "log2",   1⟩,
  ⟨.ln,    "ln",     1⟩,
  ⟨.sin,   "sin",    1⟩,
  ⟨.asin,  "asin",   1⟩,
  ⟨.cos,   "cos",    1⟩,
  ⟨.acos,  "acos",   1⟩,
  ⟨.tan,   "tan",    1⟩,
  ⟨.atan,  "atan",   1⟩,
  ⟨.ceil,  "ceil",   1⟩,
  ⟨.floor, "floor",  1⟩,
  ⟨.round, "round",  1⟩,
  ⟨.sqrt,  "sqrt",   1⟩]

/-- Mirrors the C `Token` tagged union.  `null` is the zero-initialised
`TK_NULL` token used as the lexer lookback before any token is read.  The
`callArity` of a function token is `0` as produced by the lexer and is set by
the transformer when the call's right parenthesis is processed. -/
inductive Token where
  | null
  | number (v : FP)
  | operator (o : Operator)
  | function (f : Function) (callArity : Int)
  | lparen
  | rparen
  | comma
deriving DecidableEq, Repr

/-- Errors of the pipeline.  Each constructor corresponds to one abort path
of the C program: a diagnostic plus nonzero exit, an `exit(1)` in a stack
helper, or a failing `assert`. -/
inductive CalcError where
  | invalidToken
  | undefinedFunction (name : String)
  | mismatchedParens
  | unexpectedComma
  | arityMismatch (name : String) (expected given : Int)
  | stackUnderflow
  | arityUnderflow
  | assertFail
deriving DecidableEq, Repr

/-- Result of one `eat_token` call: a token with the remaining input, end of
input, or a lexical error (C return codes 1, 0, -1). -/
inductive LexResult where
  | tok (t : Token) (rest : List Char)
  | eoi
  | err (e : CalcError)
deriving DecidableEq, Repr

/-- C `isspace` in the default locale. -/
def isSpaceC (c : Char) : Bool :=
  c = ' ' ∨ c = '\t' ∨ c = '\n' ∨ c = '\x0b' ∨ c = '\x0c' ∨ c = '\r'

/-- C `isdigit`. -/
def isDigitC (c : Char) : Bool := decide ('0' ≤ c ∧ c ≤ '9')

/-- C `isalpha` in the default locale. -/
def isAlphaC (c : Char) : Bool :=
  decide (('a' ≤ c ∧ c ≤ 'z') ∨ ('A' ≤ c ∧ c ≤ 'Z'))

/-- C `isalnum` in the default locale. -/
def isAlnumC (c : Char) : Bool := isAlphaC c || isDigitC c

/-- Value of a digit string. -/
def digitsToNat (ds : List Char) : ℕ :=
  ds.foldl (fun n c => 10 * n + (c.toNat - '0'.toNat)) 0

/-- The `while (isspace(*at)) at++` loop of `eat_token`. -/
def skipSpaces (s : List Char) : List Char := s.dropWhile isSpaceC

/-- Fractional part of a decimal literal: digits after the decimal point, if
the next character is a point. -/
def scanFrac : List Char → List Char × List Char
  | '.' :: t => (t.takeWhile isDigitC, t.dropWhile isDigitC)
  | s => ([], s)

/-- Exponent scanning, step 3: the digits.  The exponent marker is consumed
only when at least one digit follows, as `strtod` accepts the longest valid
literal. -/
def scanExpDigits (base : ℚ) (orig : List Char) (negE : Bool) (r : List Char) :
    ℚ × List Char :=
  if (r.takeWhile isDigitC).isEmpty then (base, orig)
  else if negE then
    (base / 10 ^ digitsToNat (r.takeWhile isDigitC), r.dropWhile isDigitC)
  else
    (base * 10 ^ digitsToNat (r.takeWhile isDigitC), r.dropWhile isDigitC)

/-- Exponent scanning, step 2: an optional sign after `e`/`E`. -/
def scanExpSigned (base : ℚ) (orig rest : List Char) : ℚ × List Char :=
  match rest with
  | '+' :: r2 => scanExpDigits base orig false r2
  | '-' :: r2 => scanExpDigits base orig true r2
  | r2 => scanExpDigits base orig false r2

/-- Exponent scanning, step 1: the `e`/`E` marker. -/
def scanExp (base : ℚ) (s : List Char) : ℚ × List Char :=
  match s with
  | 'e' :: rest => scanExpSigned base s rest
  | 'E' :: rest => scanExpSigned base s rest
  | _ => (base, s)

/-- Model of the `strtod` call in `eat_token` on a decimal literal starting
with a digit: integer digits, optional fraction, optional exponent; the
maximal valid literal is consumed and its exact rational value returned. -/
def scanNumber (s : List Char) : ℚ × List Char :=
  let ip := s.takeWhile isDigitC
  let fr := scanFrac (s.dropWhile isDigitC)
  scanExp ((digitsToNat ip : ℚ) + (digitsToNat fr.1 : ℚ) / 10 ^ fr.1.length) fr.2

/-- The unary-position test of `eat_token`: an operator character is unary
exactly when the previous token is absent (`TK_NULL`), an operator, or a left
parenthesis. -/
def unaryCtx (last : Token) : Bool :=
  match last with
  | .null => true
  | .operator _ => true
  | .lparen => true
  | _ => false

/-- Model of `eat_token`: skip whitespace, then scan a number, an identifier
looked up in the function catalog (at most 7 characters are consumed, the
C name buffer being 8 bytes), punctuation, or an operator selected by symbol
and by the unary-position test on the previous token. -/
def eatToken (last : Token) (s : List Char) : LexResult :=
  match skipSpaces s with
  | [] => .eoi
  | c :: cs =>
    if isDigitC c then
      let p := scanNumber (c :: cs)
      .tok (.number (.num p.1)) p.2
    else if isAlphaC c then
      let name := ((c :: cs).takeWhile isAlnumC).take 7
      let rest := (c :: cs).drop name.length
      match functions.find? (fun f => f.name == String.mk name) with
      | some f => .tok (.function f 0) rest
      | none => .err (.undefinedFunction (String.mk name))
    else if c = '(' then .tok .lparen cs
    else if c = ')' then .tok .rparen cs
    else if c = ',' then .tok .comma cs
    else
      match operators.find? (fun o => o.sym == c && o.unary == unaryCtx last) with
      | some o => .tok (.operator o) cs
      | none => .err .invalidToken

/-- State of the shunting-yard loop in `main`: operator stack, output
sequence, arity-tracking stack.  Stack tops are list heads; the output is in
emission order. -/
structure SyState where
  ops : List Token
  out : List Token
  arity : List Int
deriving DecidableEq, Repr

/-- The initial (empty) transformer state. -/
def initState : SyState := ⟨[], [], []⟩

/-- Mirrors `arity_has_arg`: mark the innermost open call as having at least
one argument; a no-op on an empty arity stack. -/
def arityHasArg : List Int → List Int
  | [] => []
  | a :: rest => (if a = 0 then 1 else a) :: rest

/-- The pre-switch step of the token loop: every token other than the two
parentheses marks the innermost arity tracker. -/
def applyHasArg (t : Token) (ar : List Int) : List Int :=
  match t with
  | .rparen => ar
  | .lparen => ar
  | _ => arityHasArg ar

/-- Mirrors `arity_inc`.  On an empty stack the C code writes one slot
before the array (no length guard); that slot is never read back, so the
model treats the call as a no-op. -/
def arityInc : List Int → List Int
  | [] => []
  | a :: rest => (a + 1) :: rest

/-- The pop condition of the shunting-yard operator case: the incoming
binary operator `o1` moves the stacked operator `o2` to the output when
`o1` is left-associative and its precedence is at most that of `o2`, or
`o1` is right-associative and its precedence is below that of `o2`. -/
def popMove (o1 o2 : Operator) : Bool :=
  if o1.lassoc then decide (o1.precedence ≤ o2.precedence)
  else decide (o1.precedence < o2.precedence)

/-- The pop loop of the binary-operator case: while the stack top is an
operator satisfying the pop condition, move it to the output.  Returns the
remaining operator stack and the extended output. -/
def popOps (o1 : Operator) : List Token → List Token → List Token × List Token
  | .operator o2 :: rest, out =>
      if popMove o1 o2 then popOps o1 rest (out ++ [.operator o2])
      else (.operator o2 :: rest, out)
  | ops, out => (ops, out)

/-- The pop loop of the right-parenthesis and comma cases: move tokens from
the operator stack to the output until a left parenthesis is on top; `none`
when the stack drains without one. -/
def popToLparen : List Token → List Token → Option (List Token × List Token)
  | [], _ => none
  | .lparen :: rest, out => some (.lparen :: rest, out)
  | t :: rest, out => popToLparen rest (out ++ [t])

/-- One iteration of the token-processing switch in `main`, including the
preceding `arity_has_arg` step. -/
def syStep (st : SyState) (t : Token) : Except CalcError SyState :=
  let ar := applyHasArg t st.arity
  match t with
  | .null => .error .assertFail
  | .number _ => .ok ⟨st.ops, st.out ++ [t], ar⟩
  | .operator o =>
    if o.unary then .ok ⟨t :: st.ops, st.out, ar⟩
    else
      let p := popOps o st.ops st.out
      .ok ⟨t :: p.1, p.2, ar⟩
  | .function _ _ => .ok ⟨t :: st.ops, st.out, 0 :: ar⟩
  | .lparen => .ok ⟨t :: st.ops, st.out, ar⟩
  | .rparen =>
    match popToLparen st.ops st.out with
    | none => .error .mismatchedParens
    | some (ops1, out1) =>
      match ops1.tail with
      | .function f _ :: rest =>
        match ar with
        | [] => .error .arityUnderflow
        | a :: arest => .ok ⟨rest, out1 ++ [.function f a], arest⟩
      | ops2 => .ok ⟨ops2, out1, ar⟩
  | .comma =>
    match popToLparen st.ops st.out with
    | none => .error .unexpectedComma
    | some (ops1, out1) => .ok ⟨ops1, out1, arityInc ar⟩

/-- The end-of-input drain of `main`: pop every remaining operator-stack
entry to the output; a leftover parenthesis is a mismatched-parenthesis
error. -/
def drainOps : List Token → List Token → Except CalcError (List Token)
  | [], out => .ok out
  | .lparen :: _, _ => .error .mismatchedParens
  | .rparen :: _, _ => .error .mismatchedParens
  | t :: rest, out => drainOps rest (out ++ [t])

/-- The lexer-transformer loop of `main`: repeatedly eat a token (the
previous token being the lookback for unary detection) and run the
shunting-yard step.  The fuel argument makes the recursion structural;
`input length + 1` units always suffice because each token consumes at least
one character (`mainLoop_fuel_irrelevant` below). -/
def mainLoop : Nat → Token → List Char → SyState → Except CalcError SyState
  | 0, _, _, _ => .error .assertFail
  | fuel + 1, last, s, st =>
    match eatToken last s with
    | .err e => .error e
    | .eoi => .ok st
    | .tok t rest =>
      match syStep st t with
      | .error e => .error e
      | .ok st2 => mainLoop fuel t rest st2

/-- The infix-to-postfix transformation of an input string: the token loop
followed by the end-of-input drain.  Returns the postfix (RPN) sequence. -/
def transform (s : String) : Except CalcError (List Token) :=
  match mainLoop (s.data.length + 1) .null s.data initState with
  | .error e => .error e
  | .ok st => drainOps st.ops st.out

/-- The token-processing loop applied to an explicit token list: the same
`syStep` the string pipeline uses, aborting at the first error. -/
def runSy : List Token → SyState → Except CalcError SyState
  | [], st => .ok st
  | t :: ts, st =>
    match syStep st t with
    | .error e => .error e
    | .ok st2 => runSy ts st2

/-- The token-processing switch applied to an explicit token list from the
initial state, for statements about the transformer independent of the
lexer. -/
def transformToks (ts : List Token) : Except CalcError SyState :=
  runSy ts initState

/-- The C switch over `OperatorId` in the evaluator.  For a unary operator
the C code zero-initialises the left operand token and sets its number to
NaN; only the two unary branches, which ignore the left operand, are
reachable from the catalog. -/
def applyOp (o : Operator) (lhs rhs : FP) : FP :=
  match o.id with
  | .binadd => fpAdd lhs rhs
  | .binsub => fpSub lhs rhs
  | .binmul => fpMul lhs rhs
  | .bindiv => fpDiv lhs rhs
  | .binrem => fpFmod lhs rhs
  | .binpow => fpPow lhs rhs
  | .unplus => rhs
  | .unminus => fpNeg rhs

/-- Pop `n` arguments off the value stack in reverse order, as the
`for (i = call_arity - 1; i >= 0; i--)` loop does: the result list has the
first-supplied argument at index 0.  An empty stack is the `tk_pop` abort;
a non-number token is the failing type assert. -/
def popArgs : Nat → List Token → Except CalcError (List FP × List Token)
  | 0, stk => .ok ([], stk)
  | n + 1, stk =>
    match stk with
    | [] => .error .stackUnderflow
    | .number v :: rest =>
      match popArgs n rest with
      | .error e => .error e
      | .ok (vs, stk2) => .ok (vs ++ [v], stk2)
    | _ :: _ => .error .assertFail

/-- The C switch over `FunctionId`: `max`/`min` reduce over all supplied
arguments with IEEE comparisons; every other (fixed-arity) function applies
the math-library call, modelled by the interpretation `transc`, to its
single argument `fargs[0]`. -/
def applyFn (transc : FunctionId → FP → FP) (f : Function) (args : List FP) : FP :=
  match f.id with
  | .max =>
    match args with
    | a :: rest => rest.foldl (fun m x => if fpGt x m then x else m) a
    | [] => FP.nan
  | .min =>
    match args with
    | a :: rest => rest.foldl (fun m x => if fpLt x m then x else m) a
    | [] => FP.nan
  | _ => transc f.id (args.headD FP.nan)

/-- The function case of the evaluator after arity validation: the
`assert(call_arity <= countof(fargs))` bound of 16, the argument pops, the
application, and the push of the result. -/
def evalFnApply (transc : FunctionId → FP → FP) (f : Function) (ca : Int)
    (stk : List Token) : Except CalcError (List Token) :=
  if 16 < ca then .error .assertFail
  else
    match popArgs ca.toNat stk with
    | .error e => .error e
    | .ok (args, rest) => .ok (.number (applyFn transc f args) :: rest)

/-- One step of the postfix evaluator: push a number; pop the operands of an
operator (right-hand side first) and push the result; validate a function
call's arity against the catalog and apply it.  Every other token kind in
the postfix sequence is the failing `assert(0)` of the default case. -/
def evalToken (transc : FunctionId → FP → FP) (stk : List Token) (t : Token) :
    Except CalcError (List Token) :=
  match t with
  | .number _ => .ok (t :: stk)
  | .operator o =>
    match stk with
    | [] => .error .stackUnderflow
    | rhsT :: rest1 =>
      if o.unary then
        match rhsT with
        | .number rhs => .ok (.number (applyOp o FP.nan rhs) :: rest1)
        | _ => .error .assertFail
      else
        match rest1 with
        | [] => .error .stackUnderflow
        | lhsT :: rest2 =>
          match lhsT with
          | .number lhs =>
            match rhsT with
            | .number rhs => .ok (.number (applyOp o lhs rhs) :: rest2)
            | _ => .error .assertFail
          | _ => .error .assertFail
  | .function f ca =>
    if f.arity = -1 then
      if ca < 1 then .error (.arityMismatch f.name 1 ca)
      else evalFnApply transc f ca stk
    else if ca ≠ f.arity then .error (.arityMismatch f.name f.arity ca)
    else evalFnApply transc f ca stk
  | _ => .error .assertFail

/-- The postfix evaluation loop: one `evalToken` step per output token,
aborting at the first error. -/
def evalSteps (transc : FunctionId → FP → FP) :
    List Token → List Token → Except CalcError (List Token)
  | [], stk => .ok stk
  | t :: ts, stk =>
    match evalToken transc stk t with
    | .error e => .error e
    | .ok stk2 => evalSteps transc ts stk2

/-- The postfix evaluation loop over the output sequence, starting from an
empty value stack. -/
def evalRPN (transc : FunctionId → FP → FP) (rpn : List Token) :
    Except CalcError (List Token) :=
  evalSteps transc rpn []

/-- The whole pipeline on an input string: lexing and transformation, then
postfix evaluation.  The result is the final value stack (top first), which
the C program prints as `result = [...]` before exiting with status 0. -/
def evaluate (transc : FunctionId → FP → FP) (s : String) :
    Except CalcError (List Token) :=
  match transform s with
  | .error e => .error e
  | .ok rpn => evalRPN transc rpn

/-- The pipeline from an explicit token list: transformer, drain, evaluator. -/
def pipeToks (transc : FunctionId → FP → FP) (ts : List Token) :
    Except CalcError (List Token) :=
  match transformToks ts with
  | .error e => .error e
  | .ok st =>
    match drainOps st.ops st.out with
    | .error e => .error e
    | .ok rpn => evalRPN transc rpn

/-- A fixed interpretation of the math-library calls, used to instantiate
theorems that do not depend on their values. -/
def nanTransc : FunctionId → FP → FP := fun _ _ => FP.nan

/-- Tokens of the second and later arguments of a call with comma-separated
numeric arguments: each argument is preceded by a comma. -/
def restToks : List ℚ → List Token
  | [] => []
  | q :: qs => Token.comma :: Token.number (FP.num q) :: restToks qs

/-- Tokens of a comma-separated numeric argument list. -/
def argToks : List ℚ → List Token
  | [] => []
  | q :: qs => Token.number (FP.num q) :: restToks qs

/-- Invariant of the transformer loop: the output sequence holds no
parenthesis tokens, and the operator stack holds no right parenthesis. -/
def goodState (st : SyState) : Prop :=
  (∀ u ∈ st.out, u ≠ Token.lparen ∧ u ≠ Token.rparen) ∧
  (∀ u ∈ st.ops, u ≠ Token.rparen)

/-! ## Basic lemmas about the lexer -/

theorem dropWhile_length_le {α : Type} (p : α → Bool) (s : List α) :
    (s.dropWhile p).length ≤ s.length := by
  induction s with
  | nil => simp
  | cons c cs ih =>
    rw [List.dropWhile_cons]
    split
    · exact le_trans ih (Nat.le_succ _)
    · exact le_refl _

theorem scanFrac_length (s : List Char) : (scanFrac s).2.length ≤ s.length := by
  unfold scanFrac
  split
  · exact le_trans (dropWhile_length_le _ _) (Nat.le_succ _)
  · exact le_refl _

theorem scanExpDigits_length (base : ℚ) (orig : List Char) (negE : Bool)
    (r : List Char) (n : ℕ) (h1 : orig.length ≤ n) (h2 : r.length ≤ n) :
    (scanExpDigits base orig negE r).2.length ≤ n := by
  unfold scanExpDigits
  split
  · exact h1
  · split
    · exact le_trans (dropWhile_length_le _ _) h2
    · exact le_trans (dropWhile_length_le _ _) h2

theorem scanExpSigned_length (base : ℚ) (orig rest : List Char) (n : ℕ)
    (h1 : orig.length ≤ n) (h2 : rest.length ≤ n) :
    (scanExpSigned base orig rest).2.length ≤ n := by
  unfold scanExpSigned
  split
  · exact scanExpDigits_length _ _ _ _ _ h1 (by simp at h2; omega)
  · exact scanExpDigits_length _ _ _ _ _ h1 (by simp at h2; omega)
  · exact scanExpDigits_length _ _ _ _ _ h1 h2

theorem scanExp_length (base : ℚ) (s : List Char) (n : ℕ) (h : s.length ≤ n) :
    (scanExp base s).2.length ≤ n := by
  unfold scanExp
  split
  · exact scanExpSigned_length _ _ _ _ h (by simp at h ⊢; omega)
  · exact scanExpSigned_length _ _ _ _ h (by simp at h ⊢; omega)
  · exact h

theorem scanNumber_length (c : Char) (cs : List Char) (h : isDigitC c = true) :
    (scanNumber (c :: cs)).2.length ≤ cs.length := by
  unfold scanNumber
  apply scanExp_length
  have h1 : List.dropWhile isDigitC (c :: cs) = List.dropWhile isDigitC cs := by
    rw [List.dropWhile_cons, if_pos h]
  calc (scanFrac (List.dropWhile isDigitC (c :: cs))).2.length
      ≤ (List.dropWhile isDigitC (c :: cs)).length := scanFrac_length _
    _ = (List.dropWhile isDigitC cs).length := by rw [h1]
    _ ≤ cs.length := dropWhile_length_le _ _

theorem eatToken_tok_length {last : Token} {s : List Char} {t : Token}
    {rest : List Char} (h : eatToken last s = .tok t rest) :
    rest.length < s.length := by
  have hskip : (skipSpaces s).length ≤ s.length := dropWhile_length_le _ _
  unfold eatToken at h
  split at h
  · simp at h
  · rename_i c cs hd
    rw [hd] at hskip
    split at h
    · rename_i hdig
      simp only [LexResult.tok.injEq] at h
      have := scanNumber_length c cs hdig
      rw [h.2] at this
      simp at hskip
      omega
    · split at h
      · rename_i hal
        dsimp only at h
        split at h
        · rename_i f hf
          simp only [LexResult.tok.injEq] at h
          have hcal : isAlnumC c = true := by simp [isAlnumC, hal]
          have htw : 1 ≤ ((c :: cs).takeWhile isAlnumC).length := by
            rw [List.takeWhile_cons, if_pos hcal]
            simp
          have hdrop := List.length_drop (((c :: cs).takeWhile isAlnumC).take 7).length (c :: cs)
          rw [h.2, List.length_take] at hdrop
          simp at hskip
          simp at hdrop
          omega
        · simp at h
      · split at h
        · simp only [LexResult.tok.injEq] at h
          rw [h.2] at hskip
          simp at hskip
          omega
        · split at h
          · simp only [LexResult.tok.injEq] at h
            rw [h.2] at hskip
            simp at hskip
            omega
          · split at h
            · simp only [LexResult.tok.injEq] at h
              rw [h.2] at hskip
              simp at hskip
              omega
            · split at h
              · rename_i o ho
                simp only [LexResult.tok.injEq] at h
                rw [h.2] at hskip
                simp at hskip
                omega
              · simp at h

theorem mainLoop_fuel_irrelevant :
    ∀ (n m : ℕ) (last : Token) (s : List Char) (st : SyState),
    s.length < n → s.length < m → mainLoop n last s st = mainLoop m last s st := by
  intro n
  induction n with
  | zero => intro m last s st hn; exact absurd hn (Nat.not_lt_zero _)
  | succ n ih =>
    intro m last s st hn hm
    cases m with
    | zero => exact absurd hm (Nat.not_lt_zero _)
    | succ m =>
      simp only [mainLoop]
      split
      · rfl
      · rfl
      · rename_i t rest heat
        split
        · rfl
        · rename_i st2 hstep
          have hlt := eatToken_tok_length heat
          exact ih m t rest st2 (by omega) (by omega)

/-! ## Lemmas about the transformer stacks -/

theorem popOps_subset_ops (o1 : Operator) :
    ∀ (ops out : List Token) (u : Token), u ∈ (popOps o1 ops out).1 → u ∈ ops := by
  intro ops
  induction ops with
  | nil => intro out u hu; simpa [popOps] using hu
  | cons t rest ih =>
    intro out u hu
    cases t with
    | operator o2 =>
      rw [popOps] at hu
      split at hu
      · exact List.mem_cons_of_mem _ (ih _ u hu)
      · exact hu
    | null => exact hu
    | number v => exact hu
    | function f ca => exact hu
    | lparen => exact hu
    | rparen => exact hu
    | comma => exact hu

theorem popOps_out_mem (o1 : Operator) :
    ∀ (ops out : List Token) (u : Token), u ∈ (popOps o1 ops out).2 →
    u ∈ out ∨ ∃ o2, u = Token.operator o2 := by
  intro ops
  induction ops with
  | nil => intro out u hu; exact Or.inl (by simpa [popOps] using hu)
  | cons t rest ih =>
    intro out u hu
    cases t with
    | operator o2 =>
      rw [popOps] at hu
      split at hu
      · rcases ih _ u hu with hmem | hop
        · rcases List.mem_append.mp hmem with h1 | h1
          · exact Or.inl h1
          · exact Or.inr ⟨o2, by simpa using h1⟩
        · exact Or.inr hop
      · exact Or.inl hu
    | null => exact Or.inl hu
    | number v => exact Or.inl hu
    | function f ca => exact Or.inl hu
    | lparen => exact Or.inl hu
    | rparen => exact Or.inl hu
    | comma => exact Or.inl hu

theorem popToLparen_none_iff :
    ∀ (ops out : List Token), popToLparen ops out = none ↔ ∀ u ∈ ops, u ≠ Token.lparen := by
  intro ops
  induction ops with
  | nil => intro out; simp [popToLparen]
  | cons t rest ih =>
    intro out
    cases t with
    | lparen => simp [popToLparen]
    | null => simpa [popToLparen] using ih (out ++ [Token.null])
    | number v => simpa [popToLparen] using ih (out ++ [Token.number v])
    | operator o => simpa [popToLparen] using ih (out ++ [Token.operator o])
    | function f ca => simpa [popToLparen] using ih (out ++ [Token.function f ca])
    | rparen => simpa [popToLparen] using ih (out ++ [Token.rparen])
    | comma => simpa [popToLparen] using ih (out ++ [Token.comma])

theorem popToLparen_good :
    ∀ (ops out ops1 out1 : List Token),
    (∀ u ∈ out, u ≠ Token.lparen ∧ u ≠ Token.rparen) →
    (∀ u ∈ ops, u ≠ Token.rparen) →
    popToLparen ops out = some (ops1, out1) →
    (∀ u ∈ out1, u ≠ Token.lparen ∧ u ≠ Token.rparen) ∧
    (∀ u ∈ ops1, u ≠ Token.rparen) ∧ (∀ u ∈ ops1, u ∈ ops) := by
  intro ops
  induction ops with
  | nil => intro out ops1 out1 hout hops h; simp [popToLparen] at h
  | cons t rest ih =>
    intro out ops1 out1 hout hops h
    cases t with
    | lparen =>
      rw [popToLparen] at h
      simp only [Option.some.injEq, Prod.mk.injEq] at h
      rw [← h.1, ← h.2]
      exact ⟨hout, hops, fun u hu => hu⟩
    | rparen => exact absurd rfl (hops _ (List.mem_cons_self _ _))
    | null =>
      have hnext : ∀ u ∈ out ++ [Token.null], u ≠ Token.lparen ∧ u ≠ Token.rparen := by
        intro u hu
        rcases List.mem_append.mp hu with h1 | h1
        · exact hout u h1
        · simp at h1; subst h1; simp
      obtain ⟨a, b, c⟩ := ih (out ++ [Token.null]) ops1 out1 hnext
        (fun u hu => hops u (List.mem_cons_of_mem _ hu)) h
      exact ⟨a, b, fun u hu => List.mem_cons_of_mem _ (c u hu)⟩
    | number v =>
      have hnext : ∀ u ∈ out ++ [Token.number v], u ≠ Token.lparen ∧ u ≠ Token.rparen := by
        intro u hu
        rcases List.mem_append.mp hu with h1 | h1
        · exact hout u h1
        · simp at h1; subst h1; simp
      obtain ⟨a, b, c⟩ := ih (out ++ [Token.number v]) ops1 out1 hnext
        (fun u hu => hops u (List.mem_cons_of_mem _ hu)) h
      exact ⟨a, b, fun u hu => List.mem_cons_of_mem _ (c u hu)⟩
    | operator o =>
      have hnext : ∀ u ∈ out ++ [Token.operator o], u ≠ Token.lparen ∧ u ≠ Token.rparen := by
        intro u hu
        rcases List.mem_append.mp hu with h1 | h1
        · exact hout u h1
        · simp at h1; subst h1; simp
      obtain ⟨a, b, c⟩ := ih (out ++ [Token.operator o]) ops1 out1 hnext
        (fun u hu => hops u (List.mem_cons_of_mem _ hu)) h
      exact ⟨a, b, fun u hu => List.mem_cons_of_mem _ (c u hu)⟩
    | function f ca =>
      have hnext : ∀ u ∈ out ++ [Token.function f ca], u ≠ Token.lparen ∧ u ≠ Token.rparen := by
        intro u hu
        rcases List.mem_append.mp hu with h1 | h1
        · exact hout u h1
        · simp at h1; subst h1; simp
      obtain ⟨a, b, c⟩ := ih (out ++ [Token.function f ca]) ops1 out1 hnext
        (fun u hu => hops u (List.mem_cons_of_mem _ hu)) h
      exact ⟨a, b, fun u hu => List.mem_cons_of_mem _ (c u hu)⟩
    | comma =>
      have hnext : ∀ u ∈ out ++ [Token.comma], u ≠ Token.lparen ∧ u ≠ Token.rparen := by
        intro u hu
        rcases List.mem_append.mp hu with h1 | h1
        · exact hout u h1
        · simp at h1; subst h1; simp
      obtain ⟨a, b, c⟩ := ih (out ++ [Token.comma]) ops1 out1 hnext
        (fun u hu => hops u (List.mem_cons_of_mem _ hu)) h
      exact ⟨a, b, fun u hu => List.mem_cons_of_mem _ (c u hu)⟩

theorem drainOps_ok_mem :
    ∀ (ops out r : List Token), drainOps ops out = .ok r →
    (∀ u ∈ out, u ≠ Token.lparen ∧ u ≠ Token.rparen) →
    ∀ u ∈ r, u ≠ Token.lparen ∧ u ≠ Token.rparen := by
  intro ops
  induction ops with
  | nil =>
    intro out r h hout
    rw [drainOps] at h
    simp only [Except.ok.injEq] at h
    rw [← h]
    exact hout
  | cons t rest ih =>
    intro out r h hout
    cases t with
    | lparen => simp [drainOps] at h
    | rparen => simp [drainOps] at h
    | null =>
      refine ih (out ++ [Token.null]) r h ?_
      intro u hu
      rcases List.mem_append.mp hu with h1 | h1
      · exact hout u h1
      · simp at h1; subst h1; simp
    | number v =>
      refine ih (out ++ [Token.number v]) r h ?_
      intro u hu
      rcases List.mem_append.mp hu with h1 | h1
      · exact hout u h1
      · simp at h1; subst h1; simp
    | operator o =>
      refine ih (out ++ [Token.operator o]) r h ?_
      intro u hu
      rcases List.mem_append.mp hu with h1 | h1
      · exact hout u h1
      · simp at h1; subst h1; simp
    | function f ca =>
      refine ih (out ++ [Token.function f ca]) r h ?_
      intro u hu
      rcases List.mem_append.mp hu with h1 | h1
      · exact hout u h1
      · simp at h1; subst h1; simp
    | comma =>
      refine ih (out ++ [Token.comma]) r h ?_
      intro u hu
      rcases List.mem_append.mp hu with h1 | h1
      · exact hout u h1
      · simp at h1; subst h1; simp

theorem drainOps_error_iff :
    ∀ (ops out : List Token),
    drainOps ops out = .error CalcError.mismatchedParens ↔
      ∃ u ∈ ops, u = Token.lparen ∨ u = Token.rparen := by
  intro ops
  induction ops with
  | nil => intro out; simp [drainOps]
  | cons t rest ih =>
    intro out
    cases t with
    | lparen => simp [drainOps]
    | rparen => simp [drainOps]
    | null =>
      rw [drainOps, ih]; simp
      all_goals rintro ⟨⟩
    | number v =>
      rw [drainOps, ih]; simp
      all_goals rintro ⟨⟩
    | operator o =>
      rw [drainOps, ih]; simp
      all_goals rintro ⟨⟩
    | function f ca =>
      rw [drainOps, ih]; simp
      all_goals rintro ⟨⟩
    | comma =>
      rw [drainOps, ih]; simp
      all_goals rintro ⟨⟩

/-! ## Preservation of the output invariant -/

theorem syStep_good {st st2 : SyState} {t : Token} (hg : goodState st)
    (h : syStep st t = .ok st2) : goodState st2 := by
  obtain ⟨hout, hops⟩ := hg
  cases t with
  | null => simp [syStep] at h
  | number v =>
    simp only [syStep, Except.ok.injEq] at h
    rw [← h]
    refine ⟨?_, hops⟩
    intro u hu
    rcases List.mem_append.mp hu with h1 | h1
    · exact hout u h1
    · simp at h1; subst h1; simp
  | operator o =>
    simp only [syStep] at h
    split at h
    · simp only [Except.ok.injEq] at h
      rw [← h]
      refine ⟨hout, ?_⟩
      intro u hu
      rcases List.mem_cons.mp hu with h1 | h1
      · subst h1; simp
      · exact hops u h1
    · simp only [Except.ok.injEq] at h
      rw [← h]
      refine ⟨?_, ?_⟩
      · intro u hu
        rcases popOps_out_mem o st.ops st.out u hu with h1 | ⟨o2, h2⟩
        · exact hout u h1
        · subst h2; simp
      · intro u hu
        rcases List.mem_cons.mp hu with h1 | h1
        · subst h1; simp
        · exact hops u (popOps_subset_ops o st.ops st.out u h1)
  | function f ca =>
    simp only [syStep, Except.ok.injEq] at h
    rw [← h]
    refine ⟨hout, ?_⟩
    intro u hu
    rcases List.mem_cons.mp hu with h1 | h1
    · subst h1; simp
    · exact hops u h1
  | lparen =>
    simp only [syStep, Except.ok.injEq] at h
    rw [← h]
    refine ⟨hout, ?_⟩
    intro u hu
    rcases List.mem_cons.mp hu with h1 | h1
    · subst h1; simp
    · exact hops u h1
  | rparen =>
    cases hp : popToLparen st.ops st.out with
    | none => simp [syStep, hp] at h
    | some p =>
      obtain ⟨ops1, out1⟩ := p
      obtain ⟨hgout1, hgops1, hsub⟩ :=
        popToLparen_good st.ops st.out ops1 out1 hout hops hp
      simp only [syStep, applyHasArg, hp] at h
      split at h
      · rename_i f ca2 rest2 htl
        split at h
        · simp at h
        · rename_i a arest
          simp only [Except.ok.injEq] at h
          rw [← h]
          refine ⟨?_, ?_⟩
          · intro u hu
            rcases List.mem_append.mp hu with h1 | h1
            · exact hgout1 u h1
            · simp at h1; subst h1; simp
          · intro u hu
            refine hgops1 u (List.mem_of_mem_tail ?_)
            rw [htl]
            exact List.mem_cons_of_mem _ hu
      · simp only [Except.ok.injEq] at h
        rw [← h]
        exact ⟨hgout1, fun u hu => hgops1 u (List.mem_of_mem_tail hu)⟩
  | comma =>
    cases hp : popToLparen st.ops st.out with
    | none => simp [syStep, hp] at h
    | some p =>
      obtain ⟨ops1, out1⟩ := p
      obtain ⟨hgout1, hgops1, hsub⟩ :=
        popToLparen_good st.ops st.out ops1 out1 hout hops hp
      simp only [syStep, applyHasArg, hp, Except.ok.injEq] at h
      rw [← h]
      exact ⟨hgout1, hgops1⟩

theorem mainLoop_good :
    ∀ (fuel : ℕ) (last : Token) (s : List Char) (st st2 : SyState),
    goodState st → mainLoop fuel last s st = .ok st2 → goodState st2 := by
  intro fuel
  induction fuel with
  | zero => intro last s st st2 hg h; simp [mainLoop] at h
  | succ n ih =>
    intro last s st st2 hg h
    simp only [mainLoop] at h
    split at h
    · simp at h
    · simp only [Except.ok.injEq] at h; rw [← h]; exact hg
    · rename_i t rest heat
      split at h
      · simp at h
      · rename_i stMid hstep
        exact ih t rest stMid st2 (syStep_good hg hstep) h

theorem goodState_init : goodState initState := by
  constructor
  · intro u hu; simp [initState] at hu
  · intro u hu; simp [initState] at hu

theorem transform_ok_noParen {s : String} {rpn : List Token}
    (h : transform s = .ok rpn) :
    ∀ u ∈ rpn, u ≠ Token.lparen ∧ u ≠ Token.rparen := by
  unfold transform at h
  cases hm : mainLoop (s.data.length + 1) .null s.data initState with
  | error e => rw [hm] at h; exact absurd h (by simp)
  | ok st =>
    rw [hm] at h
    have hg : goodState st := mainLoop_good _ _ _ _ _ goodState_init hm
    exact drainOps_ok_mem st.ops st.out rpn h hg.1

/-! ## Characterisation of the error conditions -/

theorem popMove_iff (o1 o2 : Operator) :
    popMove o1 o2 = true ↔
      (o1.precedence < o2.precedence ∨
        (o1.precedence = o2.precedence ∧ o1.lassoc = true)) := by
  unfold popMove
  cases hl : o1.lassoc <;> simp [hl] <;> omega

theorem syStep_comma_unexpected_iff (ops out : List Token) (ar : List Int) :
    syStep ⟨ops, out, ar⟩ .comma = .error .unexpectedComma ↔
      ∀ u ∈ ops, u ≠ Token.lparen := by
  rw [← popToLparen_none_iff ops out]
  cases hp : popToLparen ops out with
  | none => simp [syStep, hp]
  | some p =>
    obtain ⟨ops1, out1⟩ := p
    simp [syStep, hp]

theorem syStep_rparen_mismatched_iff (ops out : List Token) (ar : List Int) :
    syStep ⟨ops, out, ar⟩ .rparen = .error .mismatchedParens ↔
      ∀ u ∈ ops, u ≠ Token.lparen := by
  rw [← popToLparen_none_iff ops out]
  cases hp : popToLparen ops out with
  | none => simp [syStep, hp]
  | some p =>
    obtain ⟨ops1, out1⟩ := p
    constructor
    · intro hx
      exfalso
      simp only [syStep, applyHasArg, hp] at hx
      split at hx
      · split at hx <;> simp at hx
      · simp at hx
    · intro hx
      exact Option.noConfusion hx

/-! ## Unfolding equations and runs over simple token lists -/

theorem evalToken_number (transc : FunctionId → FP → FP) (stk : List Token)
    (v : FP) : evalToken transc stk (.number v) = .ok (.number v :: stk) := rfl

theorem popOps_nil (o1 : Operator) (out : List Token) :
    popOps o1 [] out = ([], out) := rfl

theorem popOps_cons_op (o1 o2 : Operator) (rest out : List Token) :
    popOps o1 (Token.operator o2 :: rest) out =
      if popMove o1 o2 then popOps o1 rest (out ++ [Token.operator o2])
      else (Token.operator o2 :: rest, out) := rfl

theorem drainOps_nil (out : List Token) : drainOps [] out = .ok out := rfl

theorem drainOps_cons_op (o : Operator) (rest out : List Token) :
    drainOps (Token.operator o :: rest) out =
      drainOps rest (out ++ [Token.operator o]) := rfl

theorem runSy_numbers :
    ∀ (qs : List ℚ) (out : List Token),
    runSy (qs.map fun q => Token.number (FP.num q)) ⟨[], out, []⟩ =
      .ok ⟨[], out ++ qs.map fun q => Token.number (FP.num q), []⟩ := by
  intro qs
  induction qs with
  | nil => intro out; simp [runSy]
  | cons q rest ih =>
    intro out
    simp only [List.map_cons, runSy, syStep, applyHasArg, arityHasArg]
    rw [ih (out ++ [Token.number (FP.num q)])]
    simp

theorem evalSteps_numbers (transc : FunctionId → FP → FP) :
    ∀ (qs : List ℚ) (stk : List Token),
    evalSteps transc (qs.map fun q => Token.number (FP.num q)) stk =
      .ok ((qs.map fun q => Token.number (FP.num q)).reverse ++ stk) := by
  intro qs
  induction qs with
  | nil => intro stk; simp [evalSteps]
  | cons q rest ih =>
    intro stk
    simp only [List.map_cons, evalSteps, evalToken_number]
    rw [ih (Token.number (FP.num q) :: stk)]
    simp

theorem runSy_callArgs (f : Function) :
    ∀ (rest : List ℚ) (out : List Token) (k : Int), 1 ≤ k →
    runSy (restToks rest ++ [Token.rparen])
        ⟨[Token.lparen, Token.function f 0], out, [k]⟩ =
      .ok ⟨[], out ++ (rest.map fun q => Token.number (FP.num q)) ++
        [Token.function f (k + rest.length)], []⟩ := by
  intro rest
  induction rest with
  | nil =>
    intro out k hk
    simp [restToks, runSy, syStep, applyHasArg, popToLparen]
  | cons q rest ih =>
    intro out k hk
    have hk0 : ¬ k = 0 := by omega
    have hk1 : ¬ k + 1 = 0 := by omega
    simp only [restToks, List.cons_append, List.append_eq, runSy, syStep, applyHasArg,
      arityHasArg, arityInc, popToLparen, if_neg hk0, if_neg hk1]
    rw [ih (out ++ [Token.number (FP.num q)]) (k + 1) (by omega)]
    have harith : k + 1 + (rest.length : Int) = k + ((rest.length : Int) + 1) := by ring
    simp [harith]

/-! ## Claim theorems -/

/-- Claim C1: evaluation respects the declared operator precedence and
associativity.  The three spec examples are verified through the full string
pipeline, and for every pair of binary operators of the catalog and all
operand values, `x o1 y o2 z` groups left exactly when `o2` has lower
precedence than `o1`, or equal precedence and left associativity. -/
theorem claim_C1 :
    (∀ transc, evaluate transc "2+3*4" = .ok [Token.number (FP.num 14)]) ∧
    (∀ transc, evaluate transc "2^3^2" = .ok [Token.number (FP.num 512)]) ∧
    (∀ transc, evaluate transc "2-3-4" = .ok [Token.number (FP.num (-5))]) ∧
    (∀ (transc : FunctionId → FP → FP) (o1 o2 : Operator),
      o1 ∈ operators → o2 ∈ operators → o1.unary = false → o2.unary = false →
      ∀ x y z : ℚ,
      pipeToks transc [Token.number (FP.num x), Token.operator o1,
          Token.number (FP.num y), Token.operator o2, Token.number (FP.num z)] =
        .ok [Token.number
          (if o2.precedence < o1.precedence ∨
              (o2.precedence = o1.precedence ∧ o2.lassoc = true)
           then applyOp o2 (applyOp o1 (FP.num x) (FP.num y)) (FP.num z)
           else applyOp o1 (FP.num x) (applyOp o2 (FP.num y) (FP.num z)))]) := by
  refine ⟨fun transc => ?_, fun transc => ?_, fun transc => ?_, ?_⟩
  · with_unfolding_all rfl
  · with_unfolding_all rfl
  · with_unfolding_all rfl
  · intro transc o1 o2 hm1 hm2 hu1 hu2 x y z
    by_cases hc : (o2.precedence < o1.precedence ∨
        (o2.precedence = o1.precedence ∧ o2.lassoc = true))
    · have hp : popMove o2 o1 = true := (popMove_iff o2 o1).mpr hc
      rw [if_pos hc]
      unfold pipeToks transformToks
      simp [runSy, syStep, applyHasArg, arityHasArg, initState, hu1, hu2,
        popOps_nil, popOps_cons_op, hp, drainOps_nil, drainOps_cons_op,
        evalRPN, evalSteps, evalToken]
    · have hp : popMove o2 o1 = false := by
        cases hb : popMove o2 o1
        · rfl
        · exact absurd ((popMove_iff o2 o1).mp hb) hc
      rw [if_neg hc]
      unfold pipeToks transformToks
      simp [runSy, syStep, applyHasArg, arityHasArg, initState, hu1, hu2,
        popOps_nil, popOps_cons_op, hp, drainOps_nil, drainOps_cons_op,
        evalRPN, evalSteps, evalToken]

/-- Witness for C1 at `2 + 3 * 4`: `*` has higher precedence, so the right
grouping applies and the result is 14. -/
theorem claim_C1_witness :
    pipeToks nanTransc [Token.number (FP.num 2),
        Token.operator ⟨.binadd, '+', 1, true, false⟩, Token.number (FP.num 3),
        Token.operator ⟨.binmul, '*', 2, true, false⟩, Token.number (FP.num 4)] =
      .ok [Token.number (FP.num 14)] := by
  have h := claim_C1.2.2.2 nanTransc ⟨.binadd, '+', 1, true, false⟩
    ⟨.binmul, '*', 2, true, false⟩ (by with_unfolding_all decide)
    (by with_unfolding_all decide) rfl rfl 2 3 4
  exact h.trans (by with_unfolding_all decide)

/-- Claim C2: the lexer classifies an operator character as unary exactly
when the previous token is absent, an operator, or a left parenthesis —
whenever `eat_token` returns an operator token, its unary flag equals the
unary-position test on the lookback token — and the three spec examples
evaluate as stated. -/
theorem claim_C2 :
    (∀ (last : Token) (s rest : List Char) (o : Operator),
      eatToken last s = .tok (.operator o) rest → o.unary = unaryCtx last) ∧
    (∀ transc, evaluate transc "-3+4" = .ok [Token.number (FP.num 1)]) ∧
    (∀ transc, evaluate transc "3--4" = .ok [Token.number (FP.num 7)]) ∧
    (∀ transc, evaluate transc "3+-4" = .ok [Token.number (FP.num (-1))]) := by
  refine ⟨?_, fun transc => ?_, fun transc => ?_, fun transc => ?_⟩
  · intro last s rest o h
    unfold eatToken at h
    split at h
    · simp at h
    · rename_i c cs hd
      split at h
      · simp at h
      · split at h
        · dsimp only at h
          split at h
          · simp at h
          · simp at h
        · split at h
          · simp at h
          · split at h
            · simp at h
            · split at h
              · simp at h
              · split at h
                · rename_i o2 hfind
                  have hp := List.find?_some hfind
                  simp only [Bool.and_eq_true, beq_iff_eq] at hp
                  simp only [LexResult.tok.injEq, Token.operator.injEq] at h
                  rw [← h.1]
                  exact hp.2
                · simp at h
  · with_unfolding_all rfl
  · with_unfolding_all rfl
  · with_unfolding_all rfl

/-- Witness for C2: at the start of the input, `-` lexes as the unary-minus
catalog entry, whose unary flag matches the unary-position test. -/
theorem claim_C2_witness :
    (⟨.unminus, '-', 4, false, true⟩ : Operator).unary = unaryCtx .null :=
  claim_C2.1 .null ['-'] [] ⟨.unminus, '-', 4, false, true⟩
    (by with_unfolding_all decide)

/-- Counterexample to claim C3: for the bare number sequence `1 2` the
evaluator succeeds — exiting with status 0 and printing both stack values —
instead of reporting any malformed-expression error as the claim requires. -/
theorem claim_C3_counterexample :
    evaluate nanTransc "1 2" =
      .ok [Token.number (FP.num 2), Token.number (FP.num 1)] := by
  with_unfolding_all decide

/-- Claim C3 as amended: the evaluator performs no final stack-size check.
A bare sequence of numbers transforms and evaluates successfully, leaving
every value on the stack (top first), and the program exits with success. -/
theorem claim_C3 :
    (∀ (transc : FunctionId → FP → FP) (qs : List ℚ),
      pipeToks transc (qs.map fun q => Token.number (FP.num q)) =
        .ok ((qs.map fun q => Token.number (FP.num q)).reverse)) ∧
    (evaluate nanTransc "4 5 6" =
      .ok [Token.number (FP.num 6), Token.number (FP.num 5),
        Token.number (FP.num 4)]) := by
  constructor
  · intro transc qs
    have h1 := runSy_numbers qs []
    unfold pipeToks transformToks
    rw [show initState = (⟨[], [], []⟩ : SyState) from rfl, h1]
    simp only [List.nil_append, drainOps_nil]
    unfold evalRPN
    rw [evalSteps_numbers transc qs []]
    simp
  · with_unfolding_all decide

/-- Counterexample to claim C4: the transformer succeeds on `1+`, yet the
emitted postfix sequence is not a valid postfix program — evaluating it
underflows the value stack, which the evaluator reports as an error. -/
theorem claim_C4_counterexample :
    transform "1+" = .ok [Token.number (FP.num 1),
        Token.operator ⟨.binadd, '+', 1, true, false⟩] ∧
    evaluate nanTransc "1+" = .error .stackUnderflow := by
  constructor
  · with_unfolding_all decide
  · with_unfolding_all decide

/-- Claim C4 as amended: when the transformer completes without error the
operator stack has been fully drained and no parenthesis token reaches the
emitted postfix sequence; the sequence need not be a valid postfix program,
and an operand shortfall during evaluation is caught as a stack-underflow
error rather than going unchecked. -/
theorem claim_C4 :
    ∀ (s : String) (rpn : List Token), transform s = .ok rpn →
    ∀ u ∈ rpn, u ≠ Token.lparen ∧ u ≠ Token.rparen :=
  fun _ _ h => transform_ok_noParen h

/-- Witness for C4 at `(1)`: the transform succeeds and its output holds no
parenthesis. -/
theorem claim_C4_witness :
    Token.number (FP.num 1) ≠ Token.lparen ∧
    Token.number (FP.num 1) ≠ Token.rparen :=
  claim_C4 "(1)" [Token.number (FP.num 1)] (by with_unfolding_all decide)
    (Token.number (FP.num 1)) (by simp)

/-- Counterexample to claim C5: in `max(())` there are two tokens between
the call's parentheses and no comma, so the claim's rule gives call_arity 1;
the emitted function token carries call_arity 0, because parenthesis tokens
never mark the arity tracker. -/
theorem claim_C5_counterexample :
    transform "max(())" = .ok [Token.function ⟨.max, "max", -1⟩ 0] := by
  with_unfolding_all decide

/-- Claim C5 as amended: parenthesis tokens are not counted as arguments.
A call whose arguments are comma-separated numbers gets call_arity equal to
the number of arguments (1 + number of commas), and a comma at a deeper
plain-parenthesis nesting still counts toward the innermost open call, as in
`max(1,(2,3))` whose call_arity is 3. -/
theorem claim_C5 :
    (∀ (f : Function) (qs : List ℚ), qs ≠ [] →
      transformToks (Token.function f 0 :: Token.lparen ::
          argToks qs ++ [Token.rparen]) =
        .ok ⟨[], (qs.map fun q => Token.number (FP.num q)) ++
          [Token.function f (qs.length : Int)], []⟩) ∧
    (transform "max(1,(2,3))" =
      .ok [Token.number (FP.num 1), Token.number (FP.num 2),
        Token.number (FP.num 3), Token.function ⟨.max, "max", -1⟩ 3]) := by
  constructor
  · intro f qs hqs
    cases qs with
    | nil => exact absurd rfl hqs
    | cons q rest =>
      unfold transformToks argToks
      simp only [List.cons_append, runSy, syStep, applyHasArg, arityHasArg,
        initState]
      norm_num [List.append_eq]
      rw [runSy_callArgs f rest [Token.number (FP.num q)] 1 (by omega)]
      simp
      omega
  · with_unfolding_all decide

/-- Witness for C5: `max(5, 7)` at the token level gets call_arity 2. -/
theorem claim_C5_witness :
    transformToks (Token.function ⟨.max, "max", -1⟩ 0 :: Token.lparen ::
        argToks [5, 7] ++ [Token.rparen]) =
      .ok ⟨[], [Token.number (FP.num 5), Token.number (FP.num 7),
        Token.function ⟨.max, "max", -1⟩ 2], []⟩ :=
  (claim_C5.1 ⟨.max, "max", -1⟩ [5, 7] (by simp)).trans
    (by with_unfolding_all decide)

/-- Claim C6: every function token reaching the evaluator is validated
against the catalog before any argument is popped: a fixed-arity function
with a different call_arity, and a variadic function called with fewer than
one argument, abort with an arity-mismatch error naming the function and the
expected and given arities; the two spec examples error as stated. -/
theorem claim_C6 :
    (∀ (transc : FunctionId → FP → FP) (f : Function) (ca : Int)
        (stk : List Token), f.arity = -1 → ca < 1 →
      evalToken transc stk (.function f ca) =
        .error (.arityMismatch f.name 1 ca)) ∧
    (∀ (transc : FunctionId → FP → FP) (f : Function) (ca : Int)
        (stk : List Token), f.arity ≠ -1 → ca ≠ f.arity →
      evalToken transc stk (.function f ca) =
        .error (.arityMismatch f.name f.arity ca)) ∧
    (∀ transc, evaluate transc "sqrt(4,9)" =
      .error (.arityMismatch "sqrt" 1 2)) ∧
    (∀ transc, evaluate transc "max()" = .error (.arityMismatch "max" 1 0)) := by
  refine ⟨?_, ?_, fun transc => ?_, fun transc => ?_⟩
  · intro transc f ca stk h1 h2
    simp [evalToken, h1, h2]
  · intro transc f ca stk h1 h2
    simp [evalToken, h1, h2]
  · with_unfolding_all rfl
  · with_unfolding_all rfl

/-- Witness for C6: `sqrt` (declared arity 1) called with call_arity 2. -/
theorem claim_C6_witness :
    evalToken nanTransc [] (Token.function ⟨.sqrt, "sqrt", 1⟩ 2) =
      .error (.arityMismatch "sqrt" 1 2) :=
  claim_C6.2.1 nanTransc ⟨.sqrt, "sqrt", 1⟩ 2 [] (by decide) (by decide)

/-- Counterexample to claim C7: a comma inside plain parentheses is not an
error — `(1,2)` evaluates successfully with both values left on the stack —
whereas the claim requires an UnexpectedComma error for it. -/
theorem claim_C7_counterexample :
    evaluate nanTransc "(1,2)" =
      .ok [Token.number (FP.num 2), Token.number (FP.num 1)] := by
  with_unfolding_all decide

/-- Claim C7 as amended: processing a comma reports the unexpected-comma
error exactly when no left parenthesis is anywhere on the operator stack —
a comma outside all parentheses, as in `,1` — while a comma inside plain
parentheses is accepted. -/
theorem claim_C7 :
    (∀ (ops out : List Token) (ar : List Int),
      syStep ⟨ops, out, ar⟩ .comma = .error .unexpectedComma ↔
        ∀ u ∈ ops, u ≠ Token.lparen) ∧
    (∀ transc, evaluate transc ",1" = .error .unexpectedComma) := by
  refine ⟨syStep_comma_unexpected_iff, fun transc => ?_⟩
  with_unfolding_all rfl

/-- Witness for C7: the stray comma in `,1`. -/
theorem claim_C7_witness : evaluate nanTransc ",1" = .error .unexpectedComma :=
  claim_C7.2 nanTransc

/-- Claim C8: both unbalanced-parenthesis shapes fail with the
mismatched-parentheses error: a right parenthesis whose pop loop drains the
operator stack without finding a left parenthesis, and a parenthesis left on
the operator stack when the end-of-input drain runs; `1+2)` and `(1+2` are
the spec's instances. -/
theorem claim_C8 :
    (∀ transc, evaluate transc "1+2)" = .error .mismatchedParens) ∧
    (∀ transc, evaluate transc "(1+2" = .error .mismatchedParens) ∧
    (∀ (ops out : List Token) (ar : List Int),
      syStep ⟨ops, out, ar⟩ .rparen = .error .mismatchedParens ↔
        ∀ u ∈ ops, u ≠ Token.lparen) ∧
    (∀ (ops out : List Token),
      drainOps ops out = .error CalcError.mismatchedParens ↔
        ∃ u ∈ ops, u = Token.lparen ∨ u = Token.rparen) := by
  refine ⟨fun transc => ?_, fun transc => ?_, syStep_rparen_mismatched_iff,
    drainOps_error_iff⟩
  · with_unfolding_all rfl
  · with_unfolding_all rfl

/-- Witness for C8: a right parenthesis on an empty operator stack. -/
theorem claim_C8_witness :
    syStep ⟨[], [], []⟩ .rparen = .error .mismatchedParens :=
  (claim_C8.2.2.1 [] [] []).mpr (by simp)

/-- Claim C9: division by zero is not an error — `5/0` yields positive
infinity and `0/0` yields NaN, per IEEE floating-point division. -/
theorem claim_C9 :
    (∀ transc, evaluate transc "5/0" = .ok [Token.number FP.inf]) ∧
    (∀ transc, evaluate transc "0/0" = .ok [Token.number FP.nan]) := by
  refine ⟨fun transc => ?_, fun transc => ?_⟩
  · with_unfolding_all rfl
  · with_unfolding_all rfl

/-- Claim C10: on an empty or all-whitespace input the lexer immediately
reports end of input, the postfix sequence and the final value stack are
both empty, and the pipeline completes without any error. -/
theorem claim_C10 :
    ∀ (transc : FunctionId → FP → FP) (s : String),
    (∀ c ∈ s.data, isSpaceC c = true) →
    transform s = .ok [] ∧ evaluate transc s = .ok [] := by
  intro transc s hs
  have hskip : skipSpaces s.data = [] := by
    unfold skipSpaces
    exact List.dropWhile_eq_nil_iff.mpr hs
  have heat : eatToken .null s.data = .eoi := by
    unfold eatToken
    rw [hskip]
  have hml : mainLoop (s.data.length + 1) .null s.data initState =
      .ok initState := by
    simp [mainLoop, heat]
  have ht : transform s = .ok [] := by
    unfold transform
    rw [hml]
    rfl
  refine ⟨ht, ?_⟩
  unfold evaluate
  rw [ht]
  rfl

/-- Witness for C10: the empty input string. -/
theorem claim_C10_witness :
    transform "" = .ok [] ∧ evaluate nanTransc "" = .ok [] :=
  claim_C10 nanTransc "" (by with_unfolding_all decide)
